import Mathlib

/-!
Shallow embedding of the `backoff` Go package (github.com/aofei/backoff).

`Duration` computes a Full-Jitter exponential backoff delay. the Go
`time.Duration` is a 64-bit signed integer count of nanoseconds; we model
values as `Int` and make the twos-complement wraparound of the left shift
explicit via `wrap64`. The call `rand.N(int64(limit))` draws a uniform value
in `[0, limit)` and panics when its argument is non-positive; we model the
entropy as an explicit parameter `r : Int` reduced modulo the limit, and the
panic branch as `Option.none`.
-/

namespace Backoff

/-- Twos-complement wraparound into the signed 64-bit range
`[-2^63, 2^63)`, as performed by the Go `int64` arithmetic. -/
def wrap64 (x : Int) : Int := (x + 2 ^ 63) % 2 ^ 64 - 2 ^ 63

/-- the Go arithmetic right shift `x >> n` on `int64`: floor division by `2^n`
(`Int./` is Euclidean division, which is floor division for a positive
divisor). -/
def shiftR64 (x : Int) (n : Nat) : Int := x / 2 ^ n

/-- the Go left shift `x << n` on `int64`: multiplication by `2^n` with the
high bits discarded (twos-complement wraparound). -/
def shiftL64 (x : Int) (n : Nat) : Int := wrap64 (x * 2 ^ n)

/-- The `limit` computation of `Duration` (src/backoff.go lines 21-26):
`limit = cap` when `attempt >= 63` or `base > cap >> attempt`, and
`limit = base << attempt` otherwise. -/
def goLimit (base cap attempt : Int) : Int :=
  if 63 ≤ attempt ∨ shiftR64 cap attempt.toNat < base then cap
  else shiftL64 base attempt.toNat

/-- The control outcome of `Duration`: either an early return of a concrete
value, or a call to `rand.N` with the given argument. -/
inductive DurationStep where
  | ret (d : Int)
  | randDraw (n : Int)
deriving DecidableEq

/-- The branch structure of `Duration` (src/backoff.go lines 15-32) up to the
point where randomness enters: degenerate inputs return `0`, a limit of at
most `1` returns `0`, and otherwise `rand.N(int64(limit))` is called. -/
def durationStep (base cap attempt : Int) : DurationStep :=
  if base ≤ 0 ∨ cap ≤ 0 ∨ attempt < 0 then .ret 0
  else if goLimit base cap attempt ≤ 1 then .ret 0
  else .randDraw (goLimit base cap attempt)

/-- Model of `rand.N(n)` for `int64`: panics (`none`) when `n ≤ 0`, otherwise
returns a value in `[0, n)` — the entropy `r` reduced modulo `n`. -/
def randN (r n : Int) : Option Int := if n ≤ 0 then none else some (r % n)

/-- `Duration(base, cap, attempt)` with explicit entropy `r`; `none` models a
panic inside `rand.N`. -/
def Duration (base cap attempt r : Int) : Option Int :=
  match durationStep base cap attempt with
  | .ret d => some d
  | .randDraw n => randN r n

/-- The value computed by `Duration` with explicit entropy `r`, as a total
function (the panic branch is proved unreachable in `duration_total`). -/
def durationVal (base cap attempt r : Int) : Int :=
  match durationStep base cap attempt with
  | .ret d => d
  | .randDraw n => r % n

/-!
Model of `Attempts` (src/backoff.go lines 49-86) and of its earlier revision
(src/unnamed/part_000 lines 49-71). The surrounding world is an oracle `Env`:
the result of the cancellation poll before each yield, whether the select
between the timer and `ctx.Done()` during the wait after each yield resolves
to the cancellation branch, the answer of the consumer to each yielded index, and
the entropy fed to each `Duration` call. A run is summarised as a `Trace`:
the yielded indices, the attempts at which a wait (a select on a timer) was
entered, and the attempts at which the cancellation token was checked.
-/

/-- Oracle for one run of the attempt sequence: cancellation observations,
consumer answers and entropy, indexed by attempt number. -/
structure Env where
  cancelAtPoll : Nat → Bool
  cancelDuringWait : Nat → Bool
  accept : Nat → Bool
  rand : Nat → Int

/-- Observable trace of one run: yielded indices, attempts whose
inter-attempt wait was entered, attempts at which cancellation was polled. -/
structure Trace where
  yields : List Nat
  waits : List Nat
  polls : List Nat
deriving DecidableEq

/-- Loop body of `Attempts` (src/backoff.go lines 56-84), fuelled by the
number of remaining iterations of `for attempt := range maxAttempts`: poll
cancellation, yield, and when `attempt+1 < maxAttempts` compute the delay,
skip the wait when it is non-positive (`continue`), otherwise wait on the
timer raced against `ctx.Done()`. -/
def attemptsLoop (env : Env) (maxAttempts base cap : Int) : Nat → Nat → Trace
  | _, 0 => ⟨[], [], []⟩
  | attempt, fuel + 1 =>
    if env.cancelAtPoll attempt then ⟨[], [], [attempt]⟩
    else if ¬ env.accept attempt then ⟨[attempt], [], [attempt]⟩
    else if (attempt : Int) + 1 < maxAttempts then
      if durationVal base cap attempt (env.rand attempt) ≤ 0 then
        let t := attemptsLoop env maxAttempts base cap (attempt + 1) fuel
        ⟨attempt :: t.yields, t.waits, attempt :: t.polls⟩
      else if env.cancelDuringWait attempt then ⟨[attempt], [attempt], [attempt]⟩
      else
        let t := attemptsLoop env maxAttempts base cap (attempt + 1) fuel
        ⟨attempt :: t.yields, attempt :: t.waits, attempt :: t.polls⟩
    else ⟨[attempt], [], [attempt]⟩

/-- `Attempts(ctx, maxAttempts, base, cap)` run against the oracle `env`:
returns immediately when `maxAttempts ≤ 0`, otherwise runs the loop from
attempt `0`. -/
def Attempts (env : Env) (maxAttempts base cap : Int) : Trace :=
  if maxAttempts ≤ 0 then ⟨[], [], []⟩
  else attemptsLoop env maxAttempts base cap 0 maxAttempts.toNat

/-- Loop body of the earlier revision of `Attempts`
(src/unnamed/part_000 lines 50-70): poll cancellation via a select with a
`default` branch, yield, and when `attempt+1 < maxAttempts` always enter the
select between `After(base, cap, attempt)` and `ctx.Done()` (a fresh timer
per attempt, no skip for a zero delay). -/
def attemptsLoopA (env : Env) (maxAttempts base cap : Int) : Nat → Nat → Trace
  | _, 0 => ⟨[], [], []⟩
  | attempt, fuel + 1 =>
    if env.cancelAtPoll attempt then ⟨[], [], [attempt]⟩
    else if ¬ env.accept attempt then ⟨[attempt], [], [attempt]⟩
    else if (attempt : Int) + 1 < maxAttempts then
      if env.cancelDuringWait attempt then ⟨[attempt], [attempt], [attempt]⟩
      else
        let t := attemptsLoopA env maxAttempts base cap (attempt + 1) fuel
        ⟨attempt :: t.yields, attempt :: t.waits, attempt :: t.polls⟩
    else ⟨[attempt], [], [attempt]⟩

/-- The earlier revision of `Attempts` run against the oracle `env`; the
`range maxAttempts` loop performs no iteration when `maxAttempts ≤ 0`. -/
def AttemptsA (env : Env) (maxAttempts base cap : Int) : Trace :=
  attemptsLoopA env maxAttempts base cap 0 maxAttempts.toNat

/-- Oracle with no cancellation and a consumer that accepts every index. -/
def envAll : Env := ⟨fun _ => false, fun _ => false, fun _ => true, fun _ => 0⟩

/-- Oracle whose cancellation token is already cancelled at every poll. -/
def envCancelled : Env := ⟨fun _ => true, fun _ => false, fun _ => true, fun _ => 0⟩

/-- Oracle with no cancellation and a consumer that accepts index 0, then
stops the sequence after accepting index 1. -/
def envStop : Env := ⟨fun _ => false, fun _ => false, fun i => i == 0, fun _ => 0⟩

/-- Oracle whose token fires during the very first wait and is observed by
every poll from attempt 1 on. -/
def envLateCancel : Env :=
  ⟨fun i => decide (1 ≤ i), fun _ => true, fun _ => true, fun _ => 0⟩

/-!
Arithmetic facts about the limit computation.
-/

/-- Wraparound is the identity on values already inside the signed 64-bit
range. -/
lemma wrap64_eq_self {x : Int} (h1 : -(2 ^ 63) ≤ x) (h2 : x < 2 ^ 63) :
    wrap64 x = x := by
  unfold wrap64
  have h : (x + 2 ^ 63) % 2 ^ 64 = x + 2 ^ 63 :=
    Int.emod_eq_of_lt (by linarith) (by norm_num; linarith)
  omega

/-- The right-shift guard of `Duration` is exact:
`cap >> attempt < base` holds iff `cap < base * 2^attempt`. -/
lemma shiftR64_lt_iff (base cap : Int) (n : Nat) :
    shiftR64 cap n < base ↔ cap < base * 2 ^ n :=
  Int.ediv_lt_iff_lt_mul (pow_pos (by norm_num) n)

/-- For positive in-range inputs the computed limit is exactly
`min cap (base * 2^attempt)`. -/
lemma goLimit_eq_min (base cap attempt : Int) (hb : 0 < base) (hc : 0 < cap)
    (ha : 0 ≤ attempt) (hc64 : cap < 2 ^ 63) :
    goLimit base cap attempt = min cap (base * 2 ^ attempt.toNat) := by
  unfold goLimit
  by_cases h63 : 63 ≤ attempt
  · rw [if_pos (Or.inl h63)]
    have h1 : (63 : Nat) ≤ attempt.toNat := by omega
    have h2 : (2 : Int) ^ 63 ≤ 2 ^ attempt.toNat :=
      pow_le_pow_right₀ (by norm_num) h1
    have h3 : (2 : Int) ^ attempt.toNat ≤ base * 2 ^ attempt.toNat :=
      le_mul_of_one_le_left (by positivity) hb
    have : cap ≤ base * 2 ^ attempt.toNat := by
      have : (2 : Int) ^ 63 ≤ base * 2 ^ attempt.toNat := le_trans h2 h3
      linarith
    exact (min_eq_left this).symm
  · by_cases hg : shiftR64 cap attempt.toNat < base
    · rw [if_pos (Or.inr hg)]
      have : cap < base * 2 ^ attempt.toNat := (shiftR64_lt_iff _ _ _).mp hg
      exact (min_eq_left (le_of_lt this)).symm
    · rw [if_neg (by tauto)]
      have hle : base * 2 ^ attempt.toNat ≤ cap := by
        have := (Int.le_ediv_iff_mul_le (c := (2:Int) ^ attempt.toNat)
          (pow_pos (by norm_num) _)).mp (le_of_not_lt hg)
        exact this
      have hpos : 0 < base * 2 ^ attempt.toNat := by positivity
      unfold shiftL64
      rw [wrap64_eq_self (by linarith) (by linarith)]
      exact (min_eq_right hle).symm

/-- For non-degenerate inputs, `durationVal` is `0` when the computed limit
is at most `1` and the entropy reduced modulo the limit otherwise. -/
lemma durationVal_eq (base cap attempt r : Int)
    (h : ¬(base ≤ 0 ∨ cap ≤ 0 ∨ attempt < 0)) :
    durationVal base cap attempt r =
      if goLimit base cap attempt ≤ 1 then 0 else r % goLimit base cap attempt := by
  unfold durationVal durationStep
  rw [if_neg h]
  by_cases h1 : goLimit base cap attempt ≤ 1
  · rw [if_pos h1, if_pos h1]
  · rw [if_neg h1, if_neg h1]

/-!
Structural lemmas about the attempt-sequence loop.
-/

/-- Every index yielded by the loop is at least the starting attempt. -/
lemma attemptsLoop_yields_ge (env : Env) (maxAttempts base cap : Int) :
    ∀ fuel attempt i,
      i ∈ (attemptsLoop env maxAttempts base cap attempt fuel).yields →
      attempt ≤ i := by
  intro fuel
  induction fuel with
  | zero => intro a i h; simp [attemptsLoop] at h
  | succ f ih =>
    intro a i h
    cases hpoll : env.cancelAtPoll a with
    | true => simp [attemptsLoop, hpoll] at h
    | false =>
      cases hacc : env.accept a with
      | false =>
        simp [attemptsLoop, hpoll, hacc] at h
        omega
      | true =>
        by_cases hlt : (a : Int) + 1 < maxAttempts
        · by_cases hd : durationVal base cap a (env.rand a) ≤ 0
          · simp [attemptsLoop, hpoll, hacc, hlt, hd] at h
            rcases h with rfl | h
            · exact le_refl _
            · have := ih (a + 1) i h
              omega
          · cases hw : env.cancelDuringWait a with
            | true =>
              simp [attemptsLoop, hpoll, hacc, hlt, hd, hw] at h
              omega
            | false =>
              simp [attemptsLoop, hpoll, hacc, hlt, hd, hw] at h
              rcases h with rfl | h
              · exact le_refl _
              · have := ih (a + 1) i h
                omega
        · simp [attemptsLoop, hpoll, hacc, hlt] at h
          omega

/-- If the loop yields index `i`, then the cancellation poll returned
`false` at every attempt between the starting attempt and `i`. -/
lemma attemptsLoop_poll_false (env : Env) (maxAttempts base cap : Int) :
    ∀ fuel attempt i,
      i ∈ (attemptsLoop env maxAttempts base cap attempt fuel).yields →
      ∀ j, attempt ≤ j → j ≤ i → env.cancelAtPoll j = false := by
  intro fuel
  induction fuel with
  | zero => intro a i h; simp [attemptsLoop] at h
  | succ f ih =>
    intro a i h j hj1 hj2
    cases hpoll : env.cancelAtPoll a with
    | true => simp [attemptsLoop, hpoll] at h
    | false =>
      cases hacc : env.accept a with
      | false =>
        simp [attemptsLoop, hpoll, hacc] at h
        subst h
        have : j = i := by omega
        subst this
        exact hpoll
      | true =>
        by_cases hlt : (a : Int) + 1 < maxAttempts
        · by_cases hd : durationVal base cap a (env.rand a) ≤ 0
          · simp [attemptsLoop, hpoll, hacc, hlt, hd] at h
            rcases h with rfl | h
            · have : j = i := by omega
              subst this
              exact hpoll
            · rcases Nat.eq_or_lt_of_le hj1 with rfl | hj
              · exact hpoll
              · exact ih (a + 1) i h j (by omega) hj2
          · cases hw : env.cancelDuringWait a with
            | true =>
              simp [attemptsLoop, hpoll, hacc, hlt, hd, hw] at h
              subst h
              have : j = i := by omega
              subst this
              exact hpoll
            | false =>
              simp [attemptsLoop, hpoll, hacc, hlt, hd, hw] at h
              rcases h with rfl | h
              · have : j = i := by omega
                subst this
                exact hpoll
              · rcases Nat.eq_or_lt_of_le hj1 with rfl | hj
                · exact hpoll
                · exact ih (a + 1) i h j (by omega) hj2
        · simp [attemptsLoop, hpoll, hacc, hlt] at h
          subst h
          have : j = i := by omega
          subst this
          exact hpoll

/-- Every yielded index was polled for cancellation first. -/
lemma attemptsLoop_yields_polls (env : Env) (maxAttempts base cap : Int) :
    ∀ fuel attempt i,
      i ∈ (attemptsLoop env maxAttempts base cap attempt fuel).yields →
      i ∈ (attemptsLoop env maxAttempts base cap attempt fuel).polls := by
  intro fuel
  induction fuel with
  | zero => intro a i h; simp [attemptsLoop] at h
  | succ f ih =>
    intro a i h
    cases hpoll : env.cancelAtPoll a with
    | true => simp [attemptsLoop, hpoll] at h
    | false =>
      cases hacc : env.accept a with
      | false => simpa [attemptsLoop, hpoll, hacc] using h
      | true =>
        by_cases hlt : (a : Int) + 1 < maxAttempts
        · by_cases hd : durationVal base cap a (env.rand a) ≤ 0
          · simp [attemptsLoop, hpoll, hacc, hlt, hd] at h ⊢
            rcases h with rfl | h
            · exact Or.inl rfl
            · exact Or.inr (ih (a + 1) i h)
          · cases hw : env.cancelDuringWait a with
            | true => simpa [attemptsLoop, hpoll, hacc, hlt, hd, hw] using h
            | false =>
              simp [attemptsLoop, hpoll, hacc, hlt, hd, hw] at h ⊢
              rcases h with rfl | h
              · exact Or.inl rfl
              · exact Or.inr (ih (a + 1) i h)
        · simpa [attemptsLoop, hpoll, hacc, hlt] using h

/-- If the loop yields an index the consumer refuses, that index is the
last one yielded and every wait belongs to an earlier attempt. -/
lemma attemptsLoop_stop (env : Env) (maxAttempts base cap : Int) :
    ∀ fuel attempt i,
      i ∈ (attemptsLoop env maxAttempts base cap attempt fuel).yields →
      env.accept i = false →
      (∃ pre, (attemptsLoop env maxAttempts base cap attempt fuel).yields
          = pre ++ [i]) ∧
      ∀ w ∈ (attemptsLoop env maxAttempts base cap attempt fuel).waits,
        w < i := by
  intro fuel
  induction fuel with
  | zero => intro a i h; simp [attemptsLoop] at h
  | succ f ih =>
    intro a i h hstop
    cases hpoll : env.cancelAtPoll a with
    | true => simp [attemptsLoop, hpoll] at h
    | false =>
      cases hacc : env.accept a with
      | false =>
        simp [attemptsLoop, hpoll, hacc] at h ⊢
        subst h
        exact ⟨[], rfl⟩
      | true =>
        by_cases hlt : (a : Int) + 1 < maxAttempts
        · by_cases hd : durationVal base cap a (env.rand a) ≤ 0
          · simp [attemptsLoop, hpoll, hacc, hlt, hd] at h ⊢
            rcases h with rfl | h
            · rw [hacc] at hstop
              exact Bool.noConfusion hstop
            · obtain ⟨⟨pre, hpre⟩, hwlt⟩ := ih (a + 1) i h hstop
              exact ⟨⟨a :: pre, by simp [hpre]⟩, hwlt⟩
          · cases hw : env.cancelDuringWait a with
            | true =>
              simp [attemptsLoop, hpoll, hacc, hlt, hd, hw] at h
              subst h
              rw [hacc] at hstop
              exact Bool.noConfusion hstop
            | false =>
              simp [attemptsLoop, hpoll, hacc, hlt, hd, hw] at h ⊢
              rcases h with rfl | h
              · rw [hacc] at hstop
                exact Bool.noConfusion hstop
              · obtain ⟨⟨pre, hpre⟩, hwlt⟩ := ih (a + 1) i h hstop
                refine ⟨⟨a :: pre, by simp [hpre]⟩, ?_, hwlt⟩
                have := attemptsLoop_yields_ge env maxAttempts base cap f
                  (a + 1) i h
                omega
        · simp [attemptsLoop, hpoll, hacc, hlt] at h ⊢
          subst h
          rw [hacc] at hstop
          exact Bool.noConfusion hstop

/-- With a token that never fires and a consumer that always accepts, the
loop started at `attempt` with matching fuel yields the consecutive range
of attempts. -/
lemma attemptsLoop_range (env : Env) (maxAttempts base cap : Int)
    (h1 : ∀ i, env.cancelAtPoll i = false)
    (h2 : ∀ i, env.cancelDuringWait i = false)
    (h3 : ∀ i, env.accept i = true) :
    ∀ (fuel attempt : Nat), (attempt : Int) + fuel = maxAttempts →
      (attemptsLoop env maxAttempts base cap attempt fuel).yields =
        List.range' attempt fuel := by
  intro fuel
  induction fuel with
  | zero => intro a _; rfl
  | succ f ih =>
    intro a hsync
    push_cast at hsync
    have ihn : (attemptsLoop env maxAttempts base cap (a + 1) f).yields =
        List.range' (a + 1) f := by
      apply ih
      push_cast
      omega
    by_cases hlt : (a : Int) + 1 < maxAttempts
    · by_cases hd : durationVal base cap a (env.rand a) ≤ 0
      · simp [attemptsLoop, h1 a, h3 a, hlt, hd, ihn, List.range'_succ]
      · simp [attemptsLoop, h1 a, h2 a, h3 a, hlt, hd, ihn,
          List.range'_succ]
    · have hf : f = 0 := by omega
      subst hf
      simp [attemptsLoop, h1 a, h3 a, hlt, List.range'_succ]

/-- Yield-equivalence of the two loop revisions, given that a wait resolved
by cancellation implies the next poll observes the cancellation. -/
lemma attemptsLoop_equiv (env : Env) (maxAttempts base cap : Int)
    (hmono : ∀ i, env.cancelDuringWait i = true →
      env.cancelAtPoll (i + 1) = true) :
    ∀ fuel attempt,
      (attemptsLoopA env maxAttempts base cap attempt fuel).yields =
        (attemptsLoop env maxAttempts base cap attempt fuel).yields := by
  intro fuel
  induction fuel with
  | zero => intro a; rfl
  | succ f ih =>
    intro a
    cases hpoll : env.cancelAtPoll a with
    | true => simp [attemptsLoop, attemptsLoopA, hpoll]
    | false =>
      cases hacc : env.accept a with
      | false => simp [attemptsLoop, attemptsLoopA, hpoll, hacc]
      | true =>
        by_cases hlt : (a : Int) + 1 < maxAttempts
        · by_cases hd : durationVal base cap a (env.rand a) ≤ 0
          · cases hw : env.cancelDuringWait a with
            | true =>
              have hnext : (attemptsLoop env maxAttempts base cap (a + 1)
                  f).yields = [] := by
                cases f with
                | zero => rfl
                | succ g => simp [attemptsLoop, hmono a hw]
              simp [attemptsLoop, attemptsLoopA, hpoll, hacc, hlt, hd, hw,
                hnext]
            | false =>
              simp [attemptsLoop, attemptsLoopA, hpoll, hacc, hlt, hd, hw,
                ih (a + 1)]
          · cases hw : env.cancelDuringWait a with
            | true =>
              simp [attemptsLoop, attemptsLoopA, hpoll, hacc, hlt, hd, hw]
            | false =>
              simp [attemptsLoop, attemptsLoopA, hpoll, hacc, hlt, hd, hw,
                ih (a + 1)]
        · simp [attemptsLoop, attemptsLoopA, hpoll, hacc, hlt]

/-!
Claims about `Duration`.
-/

/-- Claim C1: for every `base > 0`, `cap > 0` and `attempt ≥ 0` (with `cap`
in the signed 64-bit domain), the result of `Duration` is at least `0` and
strictly less than `min cap (base * 2^attempt)` computed in exact
arithmetic, and that limit is at most `cap`, so the result lies in
`[0, cap]`. -/
theorem duration_bounds (base cap attempt r : Int) (hb : 0 < base)
    (hc : 0 < cap) (ha : 0 ≤ attempt) (hc64 : cap < 2 ^ 63) :
    0 ≤ durationVal base cap attempt r ∧
    durationVal base cap attempt r < min cap (base * 2 ^ attempt.toNat) ∧
    min cap (base * 2 ^ attempt.toNat) ≤ cap := by
  have hnd : ¬(base ≤ 0 ∨ cap ≤ 0 ∨ attempt < 0) := by push_neg; omega
  rw [durationVal_eq base cap attempt r hnd,
    goLimit_eq_min base cap attempt hb hc ha hc64]
  have hpow : (0 : Int) < 2 ^ attempt.toNat := pow_pos (by norm_num) _
  have hprod : 0 < base * 2 ^ attempt.toNat := mul_pos hb hpow
  have hmin : 1 ≤ min cap (base * 2 ^ attempt.toNat) := by
    rcases min_choice cap (base * 2 ^ attempt.toNat) with h | h <;> omega
  by_cases hle : min cap (base * 2 ^ attempt.toNat) ≤ 1
  · rw [if_pos hle]
    exact ⟨le_refl 0, by omega, min_le_left _ _⟩
  · rw [if_neg hle]
    exact ⟨Int.emod_nonneg r (by omega), Int.emod_lt_of_pos r (by omega),
      min_le_left _ _⟩

/-- Witness for C1 at `base = 1`, `cap = 4`, `attempt = 1`, entropy `7`. -/
theorem duration_bounds_witness :
    0 ≤ durationVal 1 4 1 7 ∧
    durationVal 1 4 1 7 < min 4 (1 * 2 ^ (1 : Int).toNat) ∧
    min (4 : Int) (1 * 2 ^ (1 : Int).toNat) ≤ 4 :=
  duration_bounds 1 4 1 7 (by norm_num) (by norm_num) (by norm_num)
    (by norm_num)

/-- Claim C2: for `base > 0`, `cap > 0` and `0 ≤ attempt ≤ 62` with `cap` a
valid signed 64-bit value, the guard `base > cap >> attempt` holds iff the
exact product `base * 2^attempt` exceeds `cap`; when the guard is false,
`base << attempt` does not wrap and equals the exact product, and the
computed limit equals `min cap (base * 2^attempt)` exactly. -/
theorem duration_guard_exact (base cap attempt : Int) (hb : 0 < base)
    (hc : 0 < cap) (ha : 0 ≤ attempt) (h62 : attempt ≤ 62)
    (hc64 : cap < 2 ^ 63) :
    (shiftR64 cap attempt.toNat < base ↔ cap < base * 2 ^ attempt.toNat) ∧
    (¬ shiftR64 cap attempt.toNat < base →
      shiftL64 base attempt.toNat = base * 2 ^ attempt.toNat) ∧
    goLimit base cap attempt = min cap (base * 2 ^ attempt.toNat) := by
  refine ⟨shiftR64_lt_iff base cap attempt.toNat, ?_,
    goLimit_eq_min base cap attempt hb hc ha hc64⟩
  intro hg
  have hle : base * 2 ^ attempt.toNat ≤ cap :=
    (Int.le_ediv_iff_mul_le (pow_pos (by norm_num) _)).mp (le_of_not_lt hg)
  have hpos : 0 < base * 2 ^ attempt.toNat :=
    mul_pos hb (pow_pos (by norm_num) _)
  unfold shiftL64
  exact wrap64_eq_self (by linarith) (by linarith)

/-- Witness for C2 at `base = 3`, `cap = 100`, `attempt = 2`. -/
theorem duration_guard_exact_witness :
    (shiftR64 100 (2 : Int).toNat < 3 ↔ (100 : Int) < 3 * 2 ^ (2 : Int).toNat) ∧
    (¬ shiftR64 100 (2 : Int).toNat < 3 →
      shiftL64 3 (2 : Int).toNat = 3 * 2 ^ (2 : Int).toNat) ∧
    goLimit 3 100 2 = min 100 (3 * 2 ^ (2 : Int).toNat) :=
  duration_guard_exact 3 100 2 (by norm_num) (by norm_num) (by norm_num)
    (by norm_num) (by norm_num)

/-- Claim C4: any degenerate input (`base ≤ 0`, `cap ≤ 0` or `attempt < 0`)
makes `Duration` return `0` rather than fail; in particular a zero base or a
zero cap always gives `0`. -/
theorem duration_degenerate (base cap attempt r : Int)
    (h : base ≤ 0 ∨ cap ≤ 0 ∨ attempt < 0) :
    Duration base cap attempt r = some 0 ∧
    Duration 0 cap attempt r = some 0 ∧
    Duration base 0 attempt r = some 0 := by
  refine ⟨?_, ?_, ?_⟩ <;> unfold Duration durationStep
  · rw [if_pos h]
  · rw [if_pos (Or.inl (le_refl 0))]
  · rw [if_pos (Or.inr (Or.inl (le_refl 0)))]

/-- Witness for C4 at `base = 0`, `cap = 9`, `attempt = 4`, entropy `7`. -/
theorem duration_degenerate_witness :
    Duration 0 9 4 7 = some 0 ∧ Duration 0 9 4 7 = some 0 ∧
    Duration 0 0 4 7 = some 0 :=
  duration_degenerate 0 9 4 7 (Or.inl (le_refl 0))

/-- Claim C7: when the exact limit `min cap (base * 2^attempt)` is at most
`1`, `Duration` returns `0` on the early-return path, before any random
draw. -/
theorem duration_small_limit (base cap attempt r : Int) (hb : 0 < base)
    (hc : 0 < cap) (ha : 0 ≤ attempt) (hc64 : cap < 2 ^ 63)
    (h : min cap (base * 2 ^ attempt.toNat) ≤ 1) :
    durationStep base cap attempt = .ret 0 ∧
    Duration base cap attempt r = some 0 := by
  have hnd : ¬(base ≤ 0 ∨ cap ≤ 0 ∨ attempt < 0) := by push_neg; omega
  have hstep : durationStep base cap attempt = .ret 0 := by
    unfold durationStep
    rw [if_neg hnd, goLimit_eq_min base cap attempt hb hc ha hc64, if_pos h]
  exact ⟨hstep, by unfold Duration; rw [hstep]⟩

/-- Witness for C7 at `base = 1`, `cap = 1`, `attempt = 0` (one nanosecond
base and cap, first attempt). -/
theorem duration_small_limit_witness :
    durationStep 1 1 0 = .ret 0 ∧ Duration 1 1 0 5 = some 0 :=
  duration_small_limit 1 1 0 5 (by norm_num) (by norm_num) (by norm_num)
    (by norm_num) (by norm_num)

/-- Claim C8: for `attempt ≥ 63` and `cap > 0`, the result of `Duration` is
in `[0, cap)` for every `base` and every entropy; the limit saturates to
`cap` without the exponential product ever being computed. -/
theorem duration_overflow_safe (base cap attempt r : Int) (ha : 63 ≤ attempt)
    (hc : 0 < cap) :
    0 ≤ durationVal base cap attempt r ∧
    durationVal base cap attempt r < cap ∧
    goLimit base cap attempt = cap := by
  have hlim : goLimit base cap attempt = cap := by
    unfold goLimit; rw [if_pos (Or.inl ha)]
  by_cases hnd : base ≤ 0 ∨ cap ≤ 0 ∨ attempt < 0
  · have : durationVal base cap attempt r = 0 := by
      unfold durationVal durationStep; rw [if_pos hnd]
    rw [this]
    exact ⟨le_refl 0, hc, hlim⟩
  · refine ⟨?_, ?_, hlim⟩ <;>
      rw [durationVal_eq base cap attempt r hnd, hlim] <;>
      by_cases h1 : cap ≤ 1
    · rw [if_pos h1]
    · rw [if_neg h1]
      exact Int.emod_nonneg r (by omega)
    · rw [if_pos h1]; exact hc
    · rw [if_neg h1]
      exact Int.emod_lt_of_pos r hc

/-- Witness for C8 at `attempt = 63`, `cap = 10`, `base = 2^62`, entropy
`27`. -/
theorem duration_overflow_safe_witness :
    0 ≤ durationVal (2 ^ 62) 10 63 27 ∧
    durationVal (2 ^ 62) 10 63 27 < 10 ∧
    goLimit (2 ^ 62) 10 63 = 10 :=
  duration_overflow_safe (2 ^ 62) 10 63 27 (by norm_num) (by norm_num)

/-- Claim C9: `Duration` is total — it never reaches the panic branch of
`rand.N` on any input: whenever the branch structure reaches the random
draw, the argument passed to `rand.N` is strictly greater than `1`, so
`Duration` always returns a value. -/
theorem duration_total (base cap attempt r : Int) :
    Duration base cap attempt r = some (durationVal base cap attempt r) ∧
    (∀ n, durationStep base cap attempt = .randDraw n → 1 < n) := by
  have h2 : ∀ n, durationStep base cap attempt = .randDraw n → 1 < n := by
    intro n hn
    unfold durationStep at hn
    by_cases hg : base ≤ 0 ∨ cap ≤ 0 ∨ attempt < 0
    · rw [if_pos hg] at hn
      exact DurationStep.noConfusion hn
    · rw [if_neg hg] at hn
      by_cases h1 : goLimit base cap attempt ≤ 1
      · rw [if_pos h1] at hn
        exact DurationStep.noConfusion hn
      · rw [if_neg h1] at hn
        injection hn with h
        omega
  refine ⟨?_, h2⟩
  cases hstep : durationStep base cap attempt with
  | ret d => simp [Duration, durationVal, hstep]
  | randDraw n =>
    have hn := h2 n hstep
    simp [Duration, durationVal, hstep, randN]
    omega

/-- Witness for C9 at `base = 2`, `cap = 8`, `attempt = 1`, entropy `5`: the
random branch is reached with argument `4 > 1` and the call returns
`some 1`. -/
theorem duration_total_witness :
    Duration 2 8 1 5 = some 1 ∧ (1 : Int) < 4 :=
  ⟨((duration_total 2 8 1 5).1).trans (by decide),
   (duration_total 2 8 1 5).2 4 (by decide)⟩

/-!
Claims about `Attempts`.
-/

/-- Claim C3: with a cancellation token that never fires and a consumer
that accepts every index, `Attempts` yields exactly `0, 1, …,
maxAttempts-1` in strictly increasing order with no gaps and no repeats;
for `maxAttempts ≤ 0` the sequence is empty, with no waits and no
cancellation check. -/
theorem attempts_full_range (env : Env) (maxAttempts base cap : Int)
    (h1 : ∀ i, env.cancelAtPoll i = false)
    (h2 : ∀ i, env.cancelDuringWait i = false)
    (h3 : ∀ i, env.accept i = true) :
    (Attempts env maxAttempts base cap).yields =
      List.range maxAttempts.toNat ∧
    (maxAttempts ≤ 0 → Attempts env maxAttempts base cap = ⟨[], [], []⟩) := by
  constructor
  · unfold Attempts
    by_cases hle : maxAttempts ≤ 0
    · rw [if_pos hle]
      have h0 : maxAttempts.toNat = 0 := by omega
      rw [h0]
      rfl
    · rw [if_neg hle,
        attemptsLoop_range env maxAttempts base cap h1 h2 h3
          maxAttempts.toNat 0 (by omega),
        List.range_eq_range']
  · intro hle
    unfold Attempts
    rw [if_pos hle]

/-- Witness for C3 at `maxAttempts = 3`, `base = cap = 1`. -/
theorem attempts_full_range_witness :
    (Attempts envAll 3 1 1).yields = List.range (3 : Int).toNat :=
  (attempts_full_range envAll 3 1 1 (fun _ => rfl) (fun _ => rfl)
    (fun _ => rfl)).1

/-- Claim C5: every yielded index was preceded by a cancellation check, and
an index is yielded only if every check up to and including its own
observed an uncancelled token; consequently a token already cancelled at
the first check produces the empty sequence. -/
theorem attempts_poll_guard (env : Env) (maxAttempts base cap : Int) :
    (∀ i, i ∈ (Attempts env maxAttempts base cap).yields →
      i ∈ (Attempts env maxAttempts base cap).polls ∧
      ∀ j, j ≤ i → env.cancelAtPoll j = false) ∧
    (env.cancelAtPoll 0 = true →
      (Attempts env maxAttempts base cap).yields = []) := by
  have hmain : ∀ i, i ∈ (Attempts env maxAttempts base cap).yields →
      i ∈ (Attempts env maxAttempts base cap).polls ∧
      ∀ j, j ≤ i → env.cancelAtPoll j = false := by
    intro i hi
    unfold Attempts at hi ⊢
    by_cases hle : maxAttempts ≤ 0
    · rw [if_pos hle] at hi
      simp at hi
    · rw [if_neg hle] at hi ⊢
      exact ⟨attemptsLoop_yields_polls env maxAttempts base cap _ 0 i hi,
        fun j hj => attemptsLoop_poll_false env maxAttempts base cap _ 0 i
          hi j (Nat.zero_le j) hj⟩
  refine ⟨hmain, ?_⟩
  intro hc
  cases hy : (Attempts env maxAttempts base cap).yields with
  | nil => rfl
  | cons x xs =>
    exfalso
    have hx : x ∈ (Attempts env maxAttempts base cap).yields := by
      rw [hy]
      exact List.mem_cons_self x xs
    have h0 := (hmain x hx).2 0 (Nat.zero_le x)
    rw [hc] at h0
    exact Bool.noConfusion h0

/-- Witness for C5: a token cancelled before the first check yields the
empty sequence. -/
theorem attempts_poll_guard_witness :
    (Attempts envCancelled 2 1 1).yields = [] :=
  (attempts_poll_guard envCancelled 2 1 1).2 rfl

/-- Claim C6: if the consumer refuses to continue after accepting index
`i`, then `i` is the last yielded index and every wait belongs to an
earlier attempt — no yield, delay computation or wait follows the stop. -/
theorem attempts_consumer_stop (env : Env) (maxAttempts base cap : Int)
    (i : Nat) (hm : i ∈ (Attempts env maxAttempts base cap).yields)
    (hstop : env.accept i = false) :
    (∃ pre, (Attempts env maxAttempts base cap).yields = pre ++ [i]) ∧
    ∀ w ∈ (Attempts env maxAttempts base cap).waits, w < i := by
  unfold Attempts at hm ⊢
  by_cases hle : maxAttempts ≤ 0
  · rw [if_pos hle] at hm
    simp at hm
  · rw [if_neg hle] at hm ⊢
    exact attemptsLoop_stop env maxAttempts base cap _ 0 i hm hstop

/-- Witness for C6: with 3 attempts and a consumer stopping after index 1,
the sequence is exactly `[0, 1]` and no wait follows. -/
theorem attempts_consumer_stop_witness :
    (∃ pre, (Attempts envStop 3 1 1).yields = pre ++ [1]) ∧
    ∀ w ∈ (Attempts envStop 3 1 1).waits, w < 1 :=
  attempts_consumer_stop envStop 3 1 1 1 (by decide) (by decide)

/-- Claim C10: the two revisions of the attempt sequence — polling plus a
fresh `time.After` timer per attempt, and the single reusable timer with a
skip for non-positive delays — yield the same indices for every
`maxAttempts`, `base`, `cap`, cancellation schedule and consumer, given
the physical property of a context that a wait resolved by cancellation is
observed by the following poll. -/
theorem attempts_revisions_equiv (env : Env) (maxAttempts base cap : Int)
    (hmono : ∀ i, env.cancelDuringWait i = true →
      env.cancelAtPoll (i + 1) = true) :
    (AttemptsA env maxAttempts base cap).yields =
      (Attempts env maxAttempts base cap).yields := by
  unfold Attempts AttemptsA
  by_cases hle : maxAttempts ≤ 0
  · rw [if_pos hle]
    have h0 : maxAttempts.toNat = 0 := by omega
    rw [h0]
    rfl
  · rw [if_neg hle]
    exact attemptsLoop_equiv env maxAttempts base cap hmono
      maxAttempts.toNat 0

/-- Witness for C10: a token firing during the first wait, with a zero
delay, takes the wait branch in the old revision and the skipped-wait plus
poll branch in the new one; both yield `[0]`. -/
theorem attempts_revisions_equiv_witness :
    (AttemptsA envLateCancel 3 1 1).yields =
      (Attempts envLateCancel 3 1 1).yields :=
  attempts_revisions_equiv envLateCancel 3 1 1
    (fun i _ => by simp [envLateCancel])

end Backoff
